import Mathlib

/-!
Verification of the file-utility module of the kdump repository
(`kdumptool/fileutil.h`).  The repository ships only the header with
declarations and documentation; the implementation bodies are absent, so
except for the two inline unit-conversion functions (which are fully in
the header) every operation below is modelled from the specification, as
the doc comments state.  Paths are represented by their lists of
non-empty components; `splitPath` bridges from path strings.
-/

namespace Kdump

/-- Splits a character list into path components, dropping empty
components (duplicate, leading and trailing slashes).  `cur` holds the
characters of the current component, in reverse order. -/
def splitPathAux : List Char → List Char → List String
  | [], cur => if cur.isEmpty then [] else [String.mk cur.reverse]
  | c :: cs, cur =>
      if c = '/' then
        if cur.isEmpty then splitPathAux cs []
        else String.mk cur.reverse :: splitPathAux cs []
      else splitPathAux cs (c :: cur)

/-- The list of non-empty components of a path string. -/
def splitPath (s : String) : List String :=
  splitPathAux s.toList []

/-- Joins path components with `/` (no leading slash). -/
def joinComps : List String → String
  | [] => ""
  | [c] => c
  | c :: cs => c ++ "/" ++ joinComps cs

/-- Whether a path string is absolute (begins with a slash). -/
def isAbs (s : String) : Bool :=
  match s.toList with
  | '/' :: _ => true
  | _ => false

/-- A path component is clean when it is not empty, `.` or `..`. -/
def CleanL (l : List String) : Prop :=
  ∀ c ∈ l, c ≠ "" ∧ c ≠ "." ∧ c ≠ ".."

/-- One step of lexical path normalization: drop empty and `.`
components, let `..` remove the previous component. -/
def normStep (acc : List String) (c : String) : List String :=
  if c = "" ∨ c = "." then acc
  else if c = ".." then acc.dropLast
  else acc ++ [c]

/-- Lexical normalization of a component list: removes all `.`, `..`
and empty components. -/
def normComps (l : List String) : List String :=
  l.foldl normStep []

/-- The error taxonomy of the module (`KError` subcategories in the
spec, §7). -/
inductive KErrorKind where
  | NotFound
  | PermissionDenied
  | InvalidArgument
  | ChrootFailed
  | MountFailed
  | IOError
deriving DecidableEq

/-! ### Unit conversions (header, inline functions — from the source) -/

/-- `bytes_to_megabytes` from `fileutil.h`: `bytes / 1024 / 1024` on
unsigned 64-bit values (inputs below `2 ^ 64`; no operation here can
overflow). -/
def bytes_to_megabytes (bytes : Nat) : Nat :=
  bytes / 1024 / 1024

/-- `bytes_to_kilobytes` from `fileutil.h`: `bytes / 1024`. -/
def bytes_to_kilobytes (bytes : Nat) : Nat :=
  bytes / 1024

/-! ### pathconcat (header documents the return value exactly) -/

/-- Modelled from the spec: the body of `FileUtil::pathconcat(a, b)` is
absent from the sources; the header documents the result as
`a + "/" + b`. -/
def pathconcat (a b : String) : String :=
  a ++ "/" ++ b

/-- Modelled from the spec: the body of `FileUtil::pathconcat(a, b, c)`
is absent from the sources; the header documents the result as
`a + "/" + b + "/" + c`. -/
def pathconcat3 (a b c : String) : String :=
  a ++ "/" ++ b ++ "/" ++ c

/-! ### exists -/

/-- Outcome of the underlying file-status query used by
`FileUtil::exists`. -/
inductive StatOutcome where
  | ok
  | accessDenied
  | notFound
deriving DecidableEq

/-- Modelled from the spec: the body of `FileUtil::exists` is absent
from the sources.  The header declares it `throw ()` (it never raises),
and the spec defines unreadable paths to be reported as non-existent;
hence it is a total Boolean function of the status-query outcome. -/
def fileExists : StatOutcome → Bool
  | StatOutcome.ok => true
  | StatOutcome.accessDenied => false
  | StatOutcome.notFound => false

/-! ### baseName / dirname -/

/-- Modelled from the spec: the body of `FileUtil::baseName` is absent
from the sources; per spec §5/§9 it is redesigned as a pure function
computing a substring of the path (its final component), allocating a
fresh result. -/
def baseName (p : String) : String :=
  match (splitPath p).getLast? with
  | some c => c
  | none => p

/-- Modelled from the spec: the body of `FileUtil::dirname` is absent
from the sources; per spec §5/§9 it is redesigned as a pure function
returning the path without its final component. -/
def dirname (p : String) : String :=
  if isAbs p then "/" ++ joinComps (splitPath p).dropLast
  else joinComps (splitPath p).dropLast

/-- Process-wide scratch state that the legacy base/dir-name extraction
used; the redesigned operations must neither read nor write it. -/
structure ScratchState where
  buf : String
deriving DecidableEq

/-- An invocation of the redesigned `baseName`, with the process-wide
scratch state threaded explicitly to expose (non-)dependence on it. -/
def baseNameCall (p : String) (st : ScratchState) : String × ScratchState :=
  (baseName p, st)

/-- An invocation of the redesigned `dirname`, with the process-wide
scratch state threaded explicitly. -/
def dirnameCall (p : String) (st : ScratchState) : String × ScratchState :=
  (dirname p, st)

/-! ### freeDiskSize -/

/-- The fields of the space query (`statfs`) result that matter here. -/
structure StatFs where
  f_bsize : Nat
  f_blocks : Nat
  f_bfree : Nat
  f_bavail : Nat
deriving DecidableEq

/-- Modelled from the spec: the body of `FileUtil::freeDiskSize` is
absent from the sources; per spec §4.5/§8 it returns
free-block-count × block-size bytes (unsigned 64-bit arithmetic) and
fails with `IOError` when the underlying `statfs` call fails (modelled
as the query returning `none`). -/
def freeDiskSize : Option StatFs → Except KErrorKind Nat
  | none => Except.error KErrorKind.IOError
  | some s => Except.ok (s.f_bfree * s.f_bsize % 2 ^ 64)

/-! ### Chroot boundary executor -/

/-- The observable state of the calling process and its children:
the parent's root directory and working directory, the number of live
(forked, not yet exited) children and of zombies (exited, unreaped). -/
structure World where
  parentRoot : String
  parentCwd : String
  liveChildren : Nat
  zombies : Nat
deriving DecidableEq

/-- Process-level events performed by the chroot-scoped executor. -/
inductive PEvent where
  | fork
  | childChroot (dir : String)
  | childExit
  | reap
deriving DecidableEq

/-- Effect of one process-level event on the observable world.  A
`chroot` performed by the child changes only the child's private root,
never the parent's. -/
def stepEvent (w : World) : PEvent → World
  | PEvent.fork => { w with liveChildren := w.liveChildren + 1 }
  | PEvent.childChroot _ => w
  | PEvent.childExit =>
      { w with liveChildren := w.liveChildren - 1, zombies := w.zombies + 1 }
  | PEvent.reap => { w with zombies := w.zombies - 1 }

/-- The event trace of one scoped execution: fork a child, the child
chroots (successfully or not) and exits, the parent reaps it.  The
trace is the same on the success and the failure path. -/
def runScopedTrace (root : String) : List PEvent :=
  [PEvent.fork, PEvent.childChroot root, PEvent.childExit, PEvent.reap]

/-- Modelled from the spec: the body of `FileUtil::chroot` and of the
chroot-scoped executor (`ChrootBoundaryExecutor.runScoped`, spec §4.1)
is absent from the sources.  The unit of work runs in a forked child
that chroots to `root`; the result (or `ChrootFailed`) travels back
over a channel, and the parent always reaps the child. -/
def runScoped (w : World) (root : String) (canChroot : Bool)
    (work : Except KErrorKind String) : Except KErrorKind String × World :=
  (if canChroot then work else Except.error KErrorKind.ChrootFailed,
   (runScopedTrace root).foldl stepEvent w)

/-! ### Filesystem model and canonical path resolution -/

/-- A filesystem entry: directory, regular file, or symbolic link with
its target string. -/
inductive FEntry where
  | dir
  | file
  | symlink (target : String)
deriving DecidableEq

/-- A finite filesystem tree: associates component lists (keys) with
entries. -/
abbrev Fs := List (List String × FEntry)

/-- Whether an entry is a symbolic link. -/
def entryIsSymlink : FEntry → Bool
  | FEntry.symlink _ => true
  | FEntry.dir => false
  | FEntry.file => false

/-- Whether a filesystem contains no symbolic links at all. -/
def noSymlinks (fs : Fs) : Bool :=
  fs.all fun kv => !entryIsSymlink kv.2

/-- The realpath-style resolution loop.  `done` holds the already
resolved components (never containing `""`, `.` or `..`), `todo` the
components still to process.  A `.` or empty component is skipped, `..`
removes the last resolved component (at the root it stays at the root,
as realpath does), and a component naming a symlink is replaced by the
link target: an absolute target restarts resolution from the root of
`fs` — which under a chroot is the jail root.  A component that does
not exist yields `none` (`NotFound`); `fuel` bounds symlink chains. -/
def resolve (fs : Fs) : Nat → List String → List String → Option (List String)
  | 0, _, _ => none
  | _ + 1, done, [] => some done
  | fuel + 1, done, c :: rest =>
      if c = "" ∨ c = "." then resolve fs fuel done rest
      else if c = ".." then resolve fs fuel done.dropLast rest
      else
        match List.lookup (done ++ [c]) fs with
        | some (FEntry.symlink t) =>
            if isAbs t = true then resolve fs fuel [] (splitPath t ++ rest)
            else resolve fs fuel done (splitPath t ++ rest)
        | some FEntry.dir => resolve fs fuel (done ++ [c]) rest
        | some FEntry.file => resolve fs fuel (done ++ [c]) rest
        | none => none

/-- Resolution of a component list from the root of `fs`. -/
def canonicalizeComps (fs : Fs) (fuel : Nat) (todo : List String) :
    Option (List String) :=
  resolve fs fuel [] todo

/-- Modelled from the spec: the body of `FileUtil::getCanonicalPath` is
absent from the sources.  It resolves all symbolic links and `.`/`..`
segments of `path` against the filesystem `fs` (keyed from the real
root); the result is the component list of the canonical absolute
path. -/
def getCanonicalPath (fs : Fs) (fuel : Nat) (path : String) :
    Option (List String) :=
  canonicalizeComps fs fuel (splitPath path)

/-- Modelled from the spec: the body of `FileUtil::getCanonicalPathRoot`
is absent from the sources.  Resolution happens inside a chroot at
`root`: `fs` is the tree below `root`, keyed by components relative to
`root`, so an absolute symlink target is resolved against the jail
root, not the real root.  The result is the component list of the
resolved path relative to `root`. -/
def getCanonicalPathRoot (fs : Fs) (fuel : Nat) (path : String) :
    Option (List String) :=
  resolve fs fuel [] (splitPath path)

/-! ### NFS export-aware mounting -/

/-- Component-wise path-prefix test: every component of `e` matches the
corresponding component of `dir`, so `/export/ab` does not falsely
match `/export/abc`. -/
def compIsPref (e dir : String) : Bool :=
  List.isPrefixOf (splitPath e) (splitPath dir)

/-- Keeps the better of a candidate export `e` and the best export seen
so far: a non-matching `e` is discarded, a matching one replaces a
strictly shorter previous best. -/
def pickLonger (dir e : String) : Option String → Option String
  | none => if compIsPref e dir = true then some e else none
  | some b =>
      if compIsPref e dir = true ∧
          (splitPath b).length < (splitPath e).length then some e
      else some b

/-- The longest entry of the export table that is a component-wise
prefix of `dir` (ties cannot occur among distinct absolute exports, as
the spec notes). -/
def selectFrom (dir : String) : List String → Option String
  | [] => none
  | e :: rest => pickLonger dir e (selectFrom dir rest)

/-- One invocation of the generic mount primitive. -/
structure MountCall where
  device : String
  mountpoint : String
  fs : String
  options : List String
deriving DecidableEq

/-- Modelled from the spec: the body of `FileUtil::nfsmount` is absent
from the sources.  `exports` is the table obtained from the remote
export listing (`showmount`).  The longest exported component-wise
prefix of `dir` is mounted (filesystem type `nfs`) — never `dir`
itself; the result is the trace of mount invocations together with, on
success, the mounted export prefix and the remaining subpath of `dir`
below it.  Without a matching export it fails with `MountFailed` and
performs no mount invocation. -/
def nfsmount (host dir mountpoint : String) (options exports : List String) :
    List MountCall × Except KErrorKind (String × String) :=
  match selectFrom dir exports with
  | none => ([], Except.error KErrorKind.MountFailed)
  | some e =>
      ([{ device := host ++ ":" ++ e, mountpoint := mountpoint,
          fs := "nfs", options := options }],
       Except.ok (e, joinComps ((splitPath dir).drop (splitPath e).length)))

/-- All nonempty component-wise ancestors of `l` exist in `fs`.  This
is the existence invariant the resolver maintains for its output. -/
def PrefOk (fs : Fs) (l : List String) : Prop :=
  ∀ p, p ≠ [] → p <+: l → ∃ e, List.lookup p fs = some e

/-- A symlink-free example tree: `/a` a directory, `/a/b` a file. -/
def exampleFsNoSym : Fs :=
  [(["a"], FEntry.dir), (["a", "b"], FEntry.file)]

/-- An example jail tree: `a` is a symlink whose target is the absolute
path `/etc/passwd`; the jail contains its own `etc/passwd`. -/
def exampleJail : Fs :=
  [(["a"], FEntry.symlink "/etc/passwd"),
   (["etc"], FEntry.dir),
   (["etc", "passwd"], FEntry.file)]

end Kdump

namespace Kdump

/-- C8: for every unsigned 64-bit `x`, `bytes_to_kilobytes x = x / 1024`
and `bytes_to_megabytes x = x / 1024 / 1024` with truncating division
(Nat division truncates, as C unsigned division does), and
`bytes_to_megabytes (bytes_to_kilobytes x * 1024) = bytes_to_megabytes x`
where the intermediate product is taken modulo `2 ^ 64` as in the C
type. -/
theorem bytes_conversion_spec (x : Nat) (hx : x < 2 ^ 64) :
    bytes_to_kilobytes x = x / 1024 ∧
    bytes_to_megabytes x = x / 1024 / 1024 ∧
    bytes_to_megabytes (bytes_to_kilobytes x * 1024 % 2 ^ 64) =
      bytes_to_megabytes x := by
  refine ⟨rfl, rfl, ?_⟩
  have hle : x / 1024 * 1024 ≤ x := Nat.div_mul_le_self x 1024
  have hlt : x / 1024 * 1024 < 2 ^ 64 := Nat.lt_of_le_of_lt hle hx
  have hmod : x / 1024 * 1024 % 2 ^ 64 = x / 1024 * 1024 :=
    Nat.mod_eq_of_lt hlt
  show (x / 1024 * 1024 % 2 ^ 64) / 1024 / 1024 = x / 1024 / 1024
  rw [hmod, Nat.mul_div_cancel _ (by norm_num)]

/-- Witness for C8 at `x = 3000000`. -/
theorem bytes_conversion_spec_witness :
    (3000000 : Nat) < 2 ^ 64 ∧
    bytes_to_megabytes (bytes_to_kilobytes 3000000 * 1024 % 2 ^ 64) =
      bytes_to_megabytes 3000000 :=
  ⟨by norm_num, (bytes_conversion_spec 3000000 (by norm_num)).2.2⟩

/-- C10: `pathconcat a b` is exactly `a ++ "/" ++ b` and
`pathconcat3 a b c` is exactly `a ++ "/" ++ b ++ "/" ++ c`, for all
strings including empty and slash-terminated ones; no normalization of
duplicate separators happens (`pathconcat "a/" "b" = "a//b"`). -/
theorem pathconcat_spec :
    (∀ a b c : String,
      pathconcat a b = a ++ "/" ++ b ∧
      pathconcat3 a b c = a ++ "/" ++ b ++ "/" ++ c ∧
      pathconcat3 a b c = pathconcat (pathconcat a b) c) ∧
    pathconcat "a/" "b" = "a//b" ∧
    pathconcat "" "" = "/" :=
  ⟨fun _ _ _ => ⟨rfl, rfl, by simp [pathconcat, pathconcat3, String.append_assoc]⟩,
   by decide, by decide⟩

/-- C7: `fileExists` is a total Boolean function of the status-query
outcome (it cannot raise: its codomain is `Bool`, not `Except`), it
returns `true` exactly on a successful query, and an access-denied
(unreadable) path is reported as non-existent. -/
theorem fileExists_total_spec :
    (∀ st : StatOutcome, fileExists st = decide (st = StatOutcome.ok)) ∧
    fileExists StatOutcome.accessDenied = false ∧
    fileExists StatOutcome.notFound = false ∧
    fileExists StatOutcome.ok = true := by
  refine ⟨fun st => ?_, rfl, rfl, rfl⟩
  cases st <;> rfl

/-- C4: `freeDiskSize` returns free-block-count × block-size bytes
(64-bit unsigned product) when the space query succeeds, and fails with
`IOError` when the underlying statfs-style query fails. -/
theorem freeDiskSize_spec :
    (∀ s : StatFs,
      freeDiskSize (some s) = Except.ok (s.f_bfree * s.f_bsize % 2 ^ 64)) ∧
    freeDiskSize none = Except.error KErrorKind.IOError :=
  ⟨fun _ => rfl, rfl⟩

/-- C9: the redesigned `baseName` and `dirname` are pure and
deterministic: an invocation leaves the process-wide scratch state
untouched and its result does not depend on that state, so two
invocations — under any interleaving of states, as in concurrent use —
return equal results. -/
theorem baseName_dirname_pure :
    ∀ (p : String) (st st' : ScratchState),
      (baseNameCall p st).2 = st ∧
      (baseNameCall p st).1 = (baseNameCall p st').1 ∧
      (dirnameCall p st).2 = st ∧
      (dirnameCall p st).1 = (dirnameCall p st').1 :=
  fun _ _ _ => ⟨rfl, rfl, rfl, rfl⟩

/-- C5: for every initial world, root and unit of work, the scoped
(fork + chroot in the child) execution leaves the calling process's
root directory and working directory unchanged, on the success path and
on the failure path alike, and leaves no zombie behind (the child is
always reaped, so the zombie count — and in fact the whole observable
world — is restored). -/
theorem runScoped_frame :
    ∀ (w : World) (root : String) (canChroot : Bool)
      (work : Except KErrorKind String),
      (runScoped w root canChroot work).2 = w ∧
      (runScoped w root canChroot work).2.parentRoot = w.parentRoot ∧
      (runScoped w root canChroot work).2.parentCwd = w.parentCwd ∧
      (runScoped w root canChroot work).2.zombies = w.zombies := by
  intro w root canChroot work
  have h : (runScoped w root canChroot work).2 = w := by
    cases w
    simp [runScoped, runScopedTrace, stepEvent]
  exact ⟨h, by rw [h], by rw [h], by rw [h]⟩

/-! ### Lemmas about export selection -/

/-- Component-wise prefix testing coincides with the list-prefix
relation on the component lists. -/
theorem isPrefOfIffPref {l₁ l₂ : List String} :
    List.isPrefixOf l₁ l₂ = true ↔ l₁ <+: l₂ := by
  constructor
  · intro h; exact List.isPrefixOf_iff_prefix.mp h
  · intro h; exact List.isPrefixOf_iff_prefix.mpr h

theorem selectFrom_none_pref {dir : String} :
    ∀ {l : List String}, selectFrom dir l = none →
      ∀ e ∈ l, compIsPref e dir = false := by
  intro l
  induction l with
  | nil => intro _ e he; cases he
  | cons a rest ih =>
    intro h e he
    rw [selectFrom] at h
    cases hrest : selectFrom dir rest with
    | none =>
      rw [hrest] at h
      simp only [pickLonger] at h
      split at h
      · exact Option.noConfusion h
      · next hc =>
        cases he with
        | head => simpa using hc
        | tail _ hmem => exact ih hrest e hmem
    | some b =>
      rw [hrest] at h
      simp only [pickLonger] at h
      split at h <;> exact Option.noConfusion h

theorem selectFrom_eq_none {dir : String} :
    ∀ {l : List String}, (∀ e ∈ l, compIsPref e dir = false) →
      selectFrom dir l = none := by
  intro l
  induction l with
  | nil => intro _; rfl
  | cons a rest ih =>
    intro h
    have hrest : selectFrom dir rest = none :=
      ih fun e he => h e (List.mem_cons_of_mem _ he)
    rw [selectFrom, hrest]
    simp [pickLonger, h a (List.mem_cons_self a rest)]

theorem selectFrom_mem_pref {dir : String} :
    ∀ {l : List String} {e : String}, selectFrom dir l = some e →
      e ∈ l ∧ compIsPref e dir = true := by
  intro l
  induction l with
  | nil => intro e h; exact Option.noConfusion h
  | cons a rest ih =>
    intro e h
    rw [selectFrom] at h
    cases hrest : selectFrom dir rest with
    | none =>
      rw [hrest] at h
      simp only [pickLonger] at h
      split at h
      · next hc =>
        injection h with h; subst h
        exact ⟨List.mem_cons_self _ _, hc⟩
      · exact Option.noConfusion h
    | some b =>
      rw [hrest] at h
      simp only [pickLonger] at h
      obtain ⟨hbmem, hbpref⟩ := ih hrest
      split at h
      · next hc =>
        injection h with h; subst h
        exact ⟨List.mem_cons_self _ _, hc.1⟩
      · injection h with h; subst h
        exact ⟨List.mem_cons_of_mem _ hbmem, hbpref⟩

theorem selectFrom_longest {dir : String} :
    ∀ {l : List String} {e : String}, selectFrom dir l = some e →
      ∀ x ∈ l, compIsPref x dir = true →
        (splitPath x).length ≤ (splitPath e).length := by
  intro l
  induction l with
  | nil => intro e h; exact Option.noConfusion h
  | cons a rest ih =>
    intro e h x hx hpx
    rw [selectFrom] at h
    cases hrest : selectFrom dir rest with
    | none =>
      rw [hrest] at h
      simp only [pickLonger] at h
      split at h
      · injection h with h; subst h
        cases hx with
        | head => exact Nat.le_refl _
        | tail _ hmem =>
          rw [selectFrom_none_pref hrest x hmem] at hpx
          exact Bool.noConfusion hpx
      · exact Option.noConfusion h
    | some b =>
      rw [hrest] at h
      simp only [pickLonger] at h
      split at h
      · next hc =>
        injection h with h; subst h
        cases hx with
        | head => exact Nat.le_refl _
        | tail _ hmem =>
          exact Nat.le_of_lt (Nat.lt_of_le_of_lt (ih hrest x hmem hpx) hc.2)
      · next hc =>
        injection h with h; subst h
        cases hx with
        | head =>
          exact Nat.le_of_not_lt fun hlt => hc ⟨hpx, hlt⟩
        | tail _ hmem => exact ih hrest x hmem hpx

/-- C2: a successful `nfsmount` has selected an entry of the export
table that is a component-wise prefix of `dir` and no shorter than any
other matching export; it mounts that prefix (a single mount invocation
of `host:prefix`, filesystem type `nfs`), never `dir` itself; the
reported remainder is `dir` minus the prefix (their components
concatenate back to `dir`'s components); and when `dir` equals the
export entry the remainder is empty, so the mountpoint is the final
directory. -/
theorem nfsmount_longest_export_match
    (host dir mountpoint : String) (options exports : List String)
    (calls : List MountCall) (e rem : String)
    (h : nfsmount host dir mountpoint options exports =
      (calls, Except.ok (e, rem))) :
    e ∈ exports ∧
    compIsPref e dir = true ∧
    (∀ x ∈ exports, compIsPref x dir = true →
      (splitPath x).length ≤ (splitPath e).length) ∧
    calls = [{ device := host ++ ":" ++ e, mountpoint := mountpoint,
               fs := "nfs", options := options }] ∧
    splitPath e ++ (splitPath dir).drop (splitPath e).length = splitPath dir ∧
    rem = joinComps ((splitPath dir).drop (splitPath e).length) ∧
    (splitPath dir = splitPath e → rem = "") := by
  unfold nfsmount at h
  split at h
  · injection h with h1 h2
    exact Except.noConfusion h2
  · next b hsel =>
    injection h with h1 h2
    injection h2 with h2
    injection h2 with h3 h4
    subst h3
    subst h4
    subst h1
    obtain ⟨hmem, hpref⟩ := selectFrom_mem_pref hsel
    have hlong := selectFrom_longest hsel
    have hpre : splitPath b <+: splitPath dir := isPrefOfIffPref.mp hpref
    obtain ⟨tl, htl⟩ := hpre
    have hdrop : (splitPath dir).drop (splitPath b).length = tl := by
      rw [← htl, List.drop_left]
    refine ⟨hmem, hpref, hlong, rfl, ?_, rfl, ?_⟩
    · rw [hdrop]
      exact htl
    · intro hde
      rw [hde, List.drop_length]
      rfl

/-- Witness for C2 at the spec's example: exports
`{/export/data, /export/data/sub}` and request
`dir = /export/data/sub/extra` select prefix `/export/data/sub` and
report remainder `extra`. -/
theorem nfsmount_longest_export_match_witness :
    nfsmount "h1" "/export/data/sub/extra" "/mnt" []
        ["/export/data", "/export/data/sub"] =
      ([{ device := "h1:/export/data/sub", mountpoint := "/mnt",
          fs := "nfs", options := [] }],
       Except.ok ("/export/data/sub", "extra")) ∧
    "/export/data/sub" ∈ ["/export/data", "/export/data/sub"] ∧
    compIsPref "/export/data/sub" "/export/data/sub/extra" = true ∧
    "extra" = joinComps ((splitPath "/export/data/sub/extra").drop
      (splitPath "/export/data/sub").length) :=
  have happ := nfsmount_longest_export_match "h1" "/export/data/sub/extra"
    "/mnt" [] ["/export/data", "/export/data/sub"]
    [{ device := "h1:/export/data/sub", mountpoint := "/mnt",
       fs := "nfs", options := [] }]
    "/export/data/sub" "extra" (by rfl)
  ⟨rfl, happ.1, happ.2.1, happ.2.2.2.2.2.1⟩

/-- C3: when no entry of the export table is a component-wise prefix of
`dir`, `nfsmount` fails with `MountFailed` and its trace of mount
invocations is empty — no mount operation is performed at all. -/
theorem nfsmount_not_exported
    (host dir mountpoint : String) (options exports : List String)
    (h : ∀ e ∈ exports, compIsPref e dir = false) :
    nfsmount host dir mountpoint options exports =
      ([], Except.error KErrorKind.MountFailed) := by
  unfold nfsmount
  rw [selectFrom_eq_none h]

/-- Witness for C3 at the spec's example: export table `{/export/data}`
does not cover `dir = /export/other`. -/
theorem nfsmount_not_exported_witness :
    (∀ e ∈ ["/export/data"], compIsPref e "/export/other" = false) ∧
    nfsmount "h1" "/export/other" "/mnt" [] ["/export/data"] =
      ([], Except.error KErrorKind.MountFailed) :=
  ⟨by decide,
   nfsmount_not_exported "h1" "/export/other" "/mnt" [] ["/export/data"]
     (by decide)⟩

/-! ### Lemmas about canonical path resolution -/

theorem cleanL_nil : CleanL [] :=
  fun c hc => absurd hc (List.not_mem_nil c)

theorem dropLastPref (l : List String) : l.dropLast <+: l := by
  have h := List.dropLast_prefix l
  exact h

theorem cleanL_dropLast {l : List String} (h : CleanL l) :
    CleanL l.dropLast :=
  fun c hc => h c ((List.dropLast_sublist l).subset hc)

theorem cleanL_append_one {l : List String} {c : String} (h : CleanL l)
    (h1 : c ≠ "") (h2 : c ≠ ".") (h3 : c ≠ "..") : CleanL (l ++ [c]) := by
  intro x hx
  rcases List.mem_append.mp hx with hx | hx
  · exact h x hx
  · have hxc := List.mem_singleton.mp hx
    subst hxc
    exact ⟨h1, h2, h3⟩

theorem resolve_clean (fs : Fs) :
    ∀ (fuel : Nat) (done todo res : List String),
      CleanL done → resolve fs fuel done todo = some res → CleanL res := by
  intro fuel
  induction fuel with
  | zero => intro done todo res _ h; exact Option.noConfusion h
  | succ fuel ih =>
    intro done todo res hdone h
    cases todo with
    | nil =>
      simp only [resolve] at h
      injection h with h
      subst h
      exact hdone
    | cons c rest =>
      simp only [resolve] at h
      by_cases h1 : c = "" ∨ c = "."
      · rw [if_pos h1] at h
        exact ih done rest res hdone h
      · rw [if_neg h1] at h
        by_cases h2 : c = ".."
        · rw [if_pos h2] at h
          exact ih done.dropLast rest res (cleanL_dropLast hdone) h
        · rw [if_neg h2] at h
          cases hlook : List.lookup (done ++ [c]) fs with
          | none => rw [hlook] at h; exact Option.noConfusion h
          | some entry =>
            rw [hlook] at h
            have hdc : CleanL (done ++ [c]) :=
              cleanL_append_one hdone (fun hc => h1 (Or.inl hc))
                (fun hc => h1 (Or.inr hc)) h2
            cases entry with
            | dir => exact ih (done ++ [c]) rest res hdc h
            | file => exact ih (done ++ [c]) rest res hdc h
            | symlink t =>
              have h' : (if isAbs t = true then
                  resolve fs fuel [] (splitPath t ++ rest)
                else resolve fs fuel done (splitPath t ++ rest)) = some res := h
              by_cases h3 : isAbs t = true
              · rw [if_pos h3] at h'
                exact ih [] (splitPath t ++ rest) res cleanL_nil h'
              · rw [if_neg h3] at h'
                exact ih done (splitPath t ++ rest) res hdone h'

theorem prefOk_nil {fs : Fs} : PrefOk fs [] := by
  intro p hne hp
  rw [List.prefix_nil] at hp
  exact absurd hp hne

theorem prefOk_dropLast {fs : Fs} {l : List String} (h : PrefOk fs l) :
    PrefOk fs l.dropLast :=
  fun p hne hp => h p hne (hp.trans (dropLastPref l))

theorem prefOk_append {fs : Fs} {l : List String} {c : String} {e : FEntry}
    (h : PrefOk fs l) (hl : List.lookup (l ++ [c]) fs = some e) :
    PrefOk fs (l ++ [c]) := by
  intro p hne hp
  rcases List.prefix_concat_iff.mp hp with hp | hp
  · subst hp
    exact ⟨e, hl⟩
  · exact h p hne hp

theorem resolve_prefOk (fs : Fs) :
    ∀ (fuel : Nat) (done todo res : List String),
      PrefOk fs done → resolve fs fuel done todo = some res →
      PrefOk fs res := by
  intro fuel
  induction fuel with
  | zero => intro done todo res _ h; exact Option.noConfusion h
  | succ fuel ih =>
    intro done todo res hdone h
    cases todo with
    | nil =>
      simp only [resolve] at h
      injection h with h
      subst h
      exact hdone
    | cons c rest =>
      simp only [resolve] at h
      by_cases h1 : c = "" ∨ c = "."
      · rw [if_pos h1] at h
        exact ih done rest res hdone h
      · rw [if_neg h1] at h
        by_cases h2 : c = ".."
        · rw [if_pos h2] at h
          exact ih done.dropLast rest res (prefOk_dropLast hdone) h
        · rw [if_neg h2] at h
          cases hlook : List.lookup (done ++ [c]) fs with
          | none => rw [hlook] at h; exact Option.noConfusion h
          | some entry =>
            rw [hlook] at h
            have hdc : PrefOk fs (done ++ [c]) := prefOk_append hdone hlook
            cases entry with
            | dir => exact ih (done ++ [c]) rest res hdc h
            | file => exact ih (done ++ [c]) rest res hdc h
            | symlink t =>
              have h' : (if isAbs t = true then
                  resolve fs fuel [] (splitPath t ++ rest)
                else resolve fs fuel done (splitPath t ++ rest)) = some res := h
              by_cases h3 : isAbs t = true
              · rw [if_pos h3] at h'
                exact ih [] (splitPath t ++ rest) res prefOk_nil h'
              · rw [if_neg h3] at h'
                exact ih done (splitPath t ++ rest) res hdone h'

theorem lookup_not_symlink :
    ∀ {fs : Fs}, noSymlinks fs = true → ∀ (p : List String) (t : String),
      List.lookup p fs ≠ some (FEntry.symlink t) := by
  intro fs
  induction fs with
  | nil => intro _ p t h; exact Option.noConfusion h
  | cons kv rest ih =>
    intro hns p t h
    obtain ⟨k, v⟩ := kv
    have hall : (!entryIsSymlink v && noSymlinks rest) = true := hns
    have hns' : (!entryIsSymlink v) = true ∧ noSymlinks rest = true :=
      Bool.and_eq_true_iff.mp hall
    rw [List.lookup_cons] at h
    cases hk : p == k with
    | true =>
      rw [hk] at h
      have h' : some v = some (FEntry.symlink t) := h
      injection h' with h'
      rw [h'] at hns'
      simp [entryIsSymlink] at hns'
    | false =>
      rw [hk] at h
      have h' : List.lookup p rest = some (FEntry.symlink t) := h
      exact ih hns'.2 p t h'

theorem resolve_norm_noSymlinks (fs : Fs) (hns : noSymlinks fs = true) :
    ∀ (fuel : Nat) (done todo res : List String),
      resolve fs fuel done todo = some res →
      res = todo.foldl normStep done := by
  intro fuel
  induction fuel with
  | zero => intro done todo res h; exact Option.noConfusion h
  | succ fuel ih =>
    intro done todo res h
    cases todo with
    | nil =>
      simp only [resolve] at h
      injection h with h
      exact h.symm
    | cons c rest =>
      simp only [resolve] at h
      rw [List.foldl_cons]
      by_cases h1 : c = "" ∨ c = "."
      · rw [if_pos h1] at h
        rw [show normStep done c = done from by simp [normStep, h1]]
        exact ih done rest res h
      · rw [if_neg h1] at h
        by_cases h2 : c = ".."
        · rw [if_pos h2] at h
          rw [show normStep done c = done.dropLast from by
            simp [normStep, h1, h2]]
          exact ih done.dropLast rest res h
        · rw [if_neg h2] at h
          rw [show normStep done c = done ++ [c] from by
            simp [normStep, h1, h2]]
          cases hlook : List.lookup (done ++ [c]) fs with
          | none => rw [hlook] at h; exact Option.noConfusion h
          | some entry =>
            rw [hlook] at h
            cases entry with
            | dir => exact ih (done ++ [c]) rest res h
            | file => exact ih (done ++ [c]) rest res h
            | symlink t => exact absurd hlook (lookup_not_symlink hns _ t)

theorem resolve_total (fs : Fs) (hns : noSymlinks fs = true) :
    ∀ (todo : List String) (fuel : Nat) (done : List String),
      CleanL todo →
      (∀ p, p ≠ [] → p <+: todo → ∃ e, List.lookup (done ++ p) fs = some e) →
      todo.length < fuel →
      resolve fs fuel done todo = some (done ++ todo) := by
  intro todo
  induction todo with
  | nil =>
    intro fuel done _ _ hfuel
    cases fuel with
    | zero => exact absurd hfuel (Nat.lt_irrefl 0)
    | succ fuel => simp [resolve]
  | cons c rest ih =>
    intro fuel done hclean hex hfuel
    cases fuel with
    | zero => exact absurd hfuel (Nat.not_lt_zero _)
    | succ fuel =>
      obtain ⟨hc1, hc2, hc3⟩ := hclean c (List.mem_cons_self c rest)
      obtain ⟨e, he⟩ := hex [c] (by simp) ⟨rest, rfl⟩
      simp only [resolve]
      rw [if_neg (fun hh => hh.elim hc1 hc2), if_neg hc3, he]
      have hrec := ih fuel (done ++ [c])
        (fun x hx => hclean x (List.mem_cons_of_mem _ hx))
        (fun p hne hp => by
          obtain ⟨tl, htl⟩ := hp
          obtain ⟨e', he'⟩ := hex (c :: p) (by simp)
            ⟨tl, by rw [List.cons_append, htl]⟩
          exact ⟨e', by rw [List.append_assoc]; exact he'⟩)
        (Nat.lt_of_succ_lt_succ hfuel)
      cases e with
      | symlink t => exact absurd he (lookup_not_symlink hns _ t)
      | dir =>
        show resolve fs fuel (done ++ [c]) rest = some (done ++ c :: rest)
        rw [hrec, List.append_assoc, List.singleton_append]
      | file =>
        show resolve fs fuel (done ++ [c]) rest = some (done ++ c :: rest)
        rw [hrec, List.append_assoc, List.singleton_append]

theorem foldl_normStep_clean :
    ∀ (l : List String), CleanL l →
      ∀ a : List String, List.foldl normStep a l = a ++ l := by
  intro l
  induction l with
  | nil => intro _ a; simp
  | cons c rest ih =>
    intro h a
    obtain ⟨h1, h2, h3⟩ := h c (List.mem_cons_self c rest)
    rw [List.foldl_cons,
      show normStep a c = a ++ [c] from by simp [normStep, h1, h2, h3],
      ih (fun x hx => h x (List.mem_cons_of_mem _ hx)) (a ++ [c]),
      List.append_assoc]
    rfl

/-- C1: any result of the scoped canonical resolution
(`getCanonicalPathRoot`, which resolves inside a chroot at `root`, so
even an absolute symlink target is interpreted against the jail root),
re-rooted at `root`, stays within `root`: normalizing
`root ++ result` yields the normalization of `root` followed exactly by
the result's components, so `root` is a component-wise ancestor of the
re-rooted result. -/
theorem getCanonicalPathRoot_stays_in_root (fs : Fs) (fuel : Nat)
    (path root : String) (res : List String)
    (h : getCanonicalPathRoot fs fuel path = some res) :
    normComps (splitPath root ++ res) = normComps (splitPath root) ++ res ∧
    normComps (splitPath root) <+: normComps (splitPath root ++ res) := by
  have hclean : CleanL res :=
    resolve_clean fs fuel [] (splitPath path) res cleanL_nil h
  have heq : normComps (splitPath root ++ res) =
      normComps (splitPath root) ++ res := by
    unfold normComps
    rw [List.foldl_append]
    exact foldl_normStep_clean res hclean _
  refine ⟨heq, ?_⟩
  rw [heq]
  exact ⟨res, rfl⟩

/-- Witness for C1: in a jail whose `a` is a symlink to the absolute
path `/etc/passwd`, scoped resolution of `/a` yields `etc/passwd`
relative to the jail — inside the root `/srv/jail`, not the real
`/etc/passwd`. -/
theorem getCanonicalPathRoot_stays_in_root_witness :
    getCanonicalPathRoot exampleJail 16 "/a" = some ["etc", "passwd"] ∧
    normComps (splitPath "/srv/jail" ++ ["etc", "passwd"]) =
      normComps (splitPath "/srv/jail") ++ ["etc", "passwd"] ∧
    normComps (splitPath "/srv/jail") <+:
      normComps (splitPath "/srv/jail" ++ ["etc", "passwd"]) :=
  have happ := getCanonicalPathRoot_stays_in_root exampleJail 16 "/a"
    "/srv/jail" ["etc", "passwd"] (by decide)
  ⟨by decide, happ.1, happ.2⟩

/-- C6: on a filesystem without symbolic links, canonicalization equals
lexical normalization — all `.`, `..` and empty segments removed — and
it is idempotent: canonicalizing the already canonical component list
returns it unchanged. -/
theorem canonicalize_normalize_idem (fs : Fs) (fuel : Nat) (path : String)
    (res : List String) (hns : noSymlinks fs = true)
    (h : getCanonicalPath fs fuel path = some res) :
    res = normComps (splitPath path) ∧
    canonicalizeComps fs (res.length + 1) res = some res := by
  constructor
  · exact resolve_norm_noSymlinks fs hns fuel [] (splitPath path) res h
  · have hclean : CleanL res :=
      resolve_clean fs fuel [] (splitPath path) res cleanL_nil h
    have hpo : PrefOk fs res :=
      resolve_prefOk fs fuel [] (splitPath path) res prefOk_nil h
    have htot := resolve_total fs hns res (res.length + 1) [] hclean
      (fun p hne hp => by simpa using hpo p hne hp)
      (Nat.lt_succ_self _)
    simpa [canonicalizeComps] using htot

/-- Witness for C6: on the symlink-free tree with directory `a` and
file `a/b`, canonicalizing `/a/./b/../b` yields `[a, b]`, its
normalization, and canonicalizing that result returns it unchanged. -/
theorem canonicalize_normalize_idem_witness :
    noSymlinks exampleFsNoSym = true ∧
    getCanonicalPath exampleFsNoSym 12 "/a/./b/../b" = some ["a", "b"] ∧
    ["a", "b"] = normComps (splitPath "/a/./b/../b") ∧
    canonicalizeComps exampleFsNoSym (["a", "b"].length + 1) ["a", "b"] =
      some ["a", "b"] :=
  have happ := canonicalize_normalize_idem exampleFsNoSym 12 "/a/./b/../b"
    ["a", "b"] (by decide) (by decide)
  ⟨by decide, by decide, happ.1, happ.2⟩

end Kdump
